import Mathlib

/-!
Shallow embedding of `wordle_env.py` (class `WordleEnv`): the Wordle
Gymnasium environment.  Words are lists of characters; the mutable
Python object is a `WordleEnv` structure threaded explicitly; numpy
int32 feedback codes are naturals; rewards are rationals; Python's
`Counter` is a total function `Char → ℤ` defaulting to 0; a raised
`ValueError` / `IndexError` is `Except.error`.
-/

namespace Wordle

/-- Feedback / alphabet-status code 0 (`EMPTY` / unused). -/
def EMPTY : ℕ := 0
/-- Feedback / alphabet-status code 1 (`GRAY`). -/
def GRAY : ℕ := 1
/-- Feedback / alphabet-status code 2 (`YELLOW`). -/
def YELLOW : ℕ := 2
/-- Feedback / alphabet-status code 3 (`GREEN`). -/
def GREEN : ℕ := 3

/-- A word is a list of characters (a Python `str`). -/
abbrev Word := List Char

/-- `_letter_to_int`: `ord(letter) - ord('a')` (for lowercase letters 0–25). -/
def letterToInt (c : Char) : ℕ := c.toNat - 97

/-- Python indexing `xs[i]` on a list: non-negative indices from the front,
negative indices from the back (`xs[-1]` is the last element), anything
else raises `IndexError` (modelled as `none`). -/
def pyGet (xs : List α) (i : ℤ) : Option α :=
  if h : 0 ≤ i ∧ i < (xs.length : ℤ) then
    some (xs.get ⟨i.toNat, by omega⟩)
  else if h2 : -(xs.length : ℤ) ≤ i ∧ i < 0 then
    some (xs.get ⟨(i + xs.length).toNat, by omega⟩)
  else
    none

/-- `Counter(secret_word)`: occurrence count of each character, default 0. -/
def initCounts (secret : Word) : Char → ℤ :=
  fun c => (secret.count c : ℤ)

/-- Decrement a counter entry (Python `secret_counts[letter] -= 1`). -/
def decr (cnt : Char → ℤ) (g : Char) : Char → ℤ :=
  fun c => if c = g then cnt c - 1 else cnt c

/-- Pass 1 of `WordleEnv.step` (lines 137–142): walk the paired
guess/secret positions left to right; on an exact match emit `GREEN`,
decrement the letter's remaining count and set its alphabet status to
`GREEN`; otherwise leave the position at its `np.full` initial `GRAY`.
Returns (feedback, counts, alphabet_status). -/
def pass1 : List (Char × Char) → (Char → ℤ) → List ℕ →
    List ℕ × (Char → ℤ) × List ℕ
  | [], cnt, alpha => ([], cnt, alpha)
  | (g, s) :: rest, cnt, alpha =>
    if g = s then
      let r := pass1 rest (decr cnt g) (alpha.set (letterToInt g) GREEN)
      (GREEN :: r.1, r.2)
    else
      let r := pass1 rest cnt alpha
      (GRAY :: r.1, r.2)

/-- Pass 2 of `WordleEnv.step` (lines 146–162): walk the pass-1 feedback
paired with the guess letters; skip `GREEN` positions; a non-green letter
still present in the secret with positive remaining count becomes
`YELLOW` (decrementing the count, promoting alphabet status unless
already `GREEN`); otherwise the position stays as it was (`GRAY`) and the
alphabet status becomes `GRAY` only if currently unused. -/
def pass2 (secret : Word) : List (ℕ × Char) → (Char → ℤ) → List ℕ →
    List ℕ × (Char → ℤ) × List ℕ
  | [], cnt, alpha => ([], cnt, alpha)
  | (f, g) :: rest, cnt, alpha =>
    if f = GREEN then
      let r := pass2 secret rest cnt alpha
      (GREEN :: r.1, r.2)
    else if g ∈ secret ∧ 0 < cnt g then
      let alpha' := if alpha.getD (letterToInt g) 0 = GREEN then alpha
                    else alpha.set (letterToInt g) YELLOW
      let r := pass2 secret rest (decr cnt g) alpha'
      (YELLOW :: r.1, r.2)
    else
      let alpha' := if alpha.getD (letterToInt g) 0 = EMPTY then
                      alpha.set (letterToInt g) GRAY
                    else alpha
      let r := pass2 secret rest cnt alpha'
      (f :: r.1, r.2)

/-- The mutable state of a `WordleEnv` object (its `self` fields). -/
structure WordleEnv where
  word_length : ℕ
  max_guesses : ℕ
  word_list : List Word
  num_words : ℕ
  secret_word : Word
  current_guess_count : ℕ
  last_feedback : List ℕ
  alphabet_status : List ℕ
  guess_history : List Word
  feedback_history : List (List ℕ)
  deriving DecidableEq

/-- The observation dictionary returned by `_get_obs`. -/
structure Obs where
  last_feedback : List ℕ
  alphabet_status : List ℕ
  guesses_remaining : ℤ
  deriving DecidableEq

/-- `WordleEnv._get_obs` (lines 88–94). -/
def getObs (env : WordleEnv) : Obs :=
  { last_feedback := env.last_feedback
    alphabet_status := env.alphabet_status
    guesses_remaining := (env.max_guesses : ℤ) - (env.current_guess_count : ℤ) }

/-- The 5-tuple returned by a non-raising `step` call. -/
structure StepResult where
  env : WordleEnv
  obs : Obs
  reward : ℚ
  terminated : Bool
  truncated : Bool
  deriving DecidableEq

/-- `WordleEnv.reset` (lines 104–121); the secret drawn by
`self.np_random.choice(self.word_list)` is passed in explicitly. -/
def resetEnv (env : WordleEnv) (secret : Word) : WordleEnv :=
  { env with
    secret_word := secret
    current_guess_count := 0
    last_feedback := List.replicate env.word_length 0
    alphabet_status := List.replicate 26 0
    guess_history := []
    feedback_history := [] }

/-- `WordleEnv.step` (lines 123–185).  The guard on line 126 returns a
frozen observation when the guess budget is exhausted; otherwise the
action is decoded by Python list indexing (raising `IndexError` when out
of range), the guess is scored by the two passes, history is appended,
and reward/termination are assigned. -/
def step (env : WordleEnv) (action : ℤ) : Except String StepResult :=
  if env.max_guesses ≤ env.current_guess_count then
    Except.ok ⟨env, getObs env, 0, true, false⟩
  else
    match pyGet env.word_list action with
    | none => Except.error "IndexError"
    | some guess =>
      let p1 := pass1 (guess.zip env.secret_word) (initCounts env.secret_word)
        env.alphabet_status
      let p2 := pass2 env.secret_word (p1.1.zip guess) p1.2.1 p1.2.2
      let env' : WordleEnv :=
        { env with
          current_guess_count := env.current_guess_count + 1
          last_feedback := p2.1
          alphabet_status := p2.2.2
          guess_history := env.guess_history ++ [guess]
          feedback_history := env.feedback_history ++ [p2.1] }
      let rt : ℚ × Bool :=
        if guess = env.secret_word then (1, true)
        else if env.current_guess_count + 1 = env.max_guesses then (-1, true)
        else (-(1 / 10), false)
      Except.ok ⟨env', getObs env', rt.1, rt.2, false⟩

/-- Python `str.lower` restricted to ASCII, applied character-wise
(faithful to the source on the lowercase/uppercase ASCII words it is
used with). -/
def pyLower (w : Word) : Word := w.map Char.toLower

/-- The word-list construction in `WordleEnv.__init__` (lines 39–55):
raise on an empty input collection; keep the length-`L` words,
lowercase them, deduplicate and sort (`sorted(list(set(...)))`); raise
if nothing remains. -/
def initWordList (custom_words : List Word) (L : ℕ) :
    Except String (List Word) :=
  if custom_words = [] then
    Except.error "custom_words list cannot be empty."
  else if (((custom_words.filter (fun w => w.length = L)).map
      pyLower).dedup).insertionSort (· ≤ ·) = [] then
    Except.error "No valid words found in custom_words."
  else
    Except.ok ((((custom_words.filter (fun w => w.length = L)).map
      pyLower).dedup).insertionSort (· ≤ ·))

/-- Pass 1 of the scoring rule alone, without the alphabet-status side
effect: feedback list and remaining counts. -/
def score1 : List (Char × Char) → (Char → ℤ) → List ℕ × (Char → ℤ)
  | [], cnt => ([], cnt)
  | (g, s) :: rest, cnt =>
    if g = s then
      let r := score1 rest (decr cnt g)
      (GREEN :: r.1, r.2)
    else
      let r := score1 rest cnt
      (GRAY :: r.1, r.2)

/-- Pass 2 of the scoring rule alone, without the alphabet-status side
effect. -/
def score2 (secret : Word) : List (ℕ × Char) → (Char → ℤ) →
    List ℕ × (Char → ℤ)
  | [], cnt => ([], cnt)
  | (f, g) :: rest, cnt =>
    if f = GREEN then
      let r := score2 secret rest cnt
      (GREEN :: r.1, r.2)
    else if g ∈ secret ∧ 0 < cnt g then
      let r := score2 secret rest (decr cnt g)
      (YELLOW :: r.1, r.2)
    else
      let r := score2 secret rest cnt
      (f :: r.1, r.2)

/-- The two-pass Wordle scoring of a guess against a secret, as the spec
describes it: remaining counts initialised to the secret's occurrence
counts, greens first, then yellows/grays left to right. -/
def scoreGuess (guess secret : Word) : List ℕ :=
  let p1 := score1 (guess.zip secret) (initCounts secret)
  (score2 secret (p1.1.zip guess) p1.2).1

/-- Number of positions whose feedback is GREEN or YELLOW and whose
guessed letter is `ch`. -/
def countGY (ch : Char) (fb : List ℕ) (guess : Word) : ℕ :=
  (fb.zip guess).countP (fun p => decide ((p.1 = GREEN ∨ p.1 = YELLOW) ∧ p.2 = ch))

/-- Well-formedness of an environment: every word in the vocabulary has
the configured length and consists of lowercase ASCII letters, and the
secret word is drawn from the vocabulary. -/
def WFEnv (env : WordleEnv) : Prop :=
  (∀ w ∈ env.word_list, w.length = env.word_length ∧
    ∀ c ∈ w, 'a' ≤ c ∧ c ≤ 'z') ∧
  env.secret_word ∈ env.word_list

/-- States reachable by some sequence of `reset` and (non-raising)
`step` calls. -/
inductive Reachable : WordleEnv → Prop
  | reset (e : WordleEnv) (s : Word) : Reachable (resetEnv e s)
  | step (e : WordleEnv) (a : ℤ) (r : StepResult) :
      Reachable e → step e a = Except.ok r → Reachable r.env

/-- The word "ab". -/
def w_ab : Word := ['a', 'b']
/-- The word "ba". -/
def w_ba : Word := ['b', 'a']

/-- A concrete two-word environment (vocabulary "ab"/"ba", secret "ab",
three guesses allowed), fresh after reset. -/
def baseEnv : WordleEnv :=
  { word_length := 2
    max_guesses := 3
    word_list := [w_ab, w_ba]
    num_words := 2
    secret_word := w_ab
    current_guess_count := 0
    last_feedback := [0, 0]
    alphabet_status := List.replicate 26 0
    guess_history := []
    feedback_history := [] }

/-- `baseEnv` with the guess budget exhausted. -/
def termEnv : WordleEnv := { baseEnv with current_guess_count := 3 }

/-- `baseEnv` after the winning guess "ab" on the first turn: the episode
is won, but only one of three guesses has been used. -/
def wonEnv : WordleEnv :=
  { baseEnv with
    current_guess_count := 1
    last_feedback := [3, 3]
    alphabet_status := ((List.replicate 26 0).set 0 3).set 1 3
    guess_history := [w_ab]
    feedback_history := [[3, 3]] }

/-- The result of one in-range step (guess "ab", the secret) from
`baseEnv`. -/
def stepRes0 : StepResult :=
  ((step baseEnv 0).toOption).getD ⟨baseEnv, getObs baseEnv, 0, false, false⟩

/-- The result of one in-range step (guess "ba", not the secret) from
`baseEnv`. -/
def stepRes1 : StepResult :=
  ((step baseEnv 1).toOption).getD ⟨baseEnv, getObs baseEnv, 0, false, false⟩

/-- A successfully decoded action names a vocabulary word. -/
theorem pyGet_mem {xs : List α} {i : ℤ} {a : α} (h : pyGet xs i = some a) :
    a ∈ xs := by
  unfold pyGet at h
  split at h
  · exact Option.some_injective _ h ▸ (xs.get_mem _ _)
  · split at h
    · exact Option.some_injective _ h ▸ (xs.get_mem _ _)
    · exact absurd h (by simp)

end Wordle

namespace Wordle

/-- C7: after `reset`, the observation has `last_feedback` all-EMPTY
(length `word_length`, all 0), `alphabet_status` all-UNUSED (length 26,
all 0) and `guesses_remaining = max_guesses`; the guess count is 0 and
both histories are empty. -/
theorem C7_reset_state (env : WordleEnv) (secret : Word) :
    getObs (resetEnv env secret) =
      ⟨List.replicate env.word_length 0, List.replicate 26 0,
        (env.max_guesses : ℤ)⟩ ∧
    (resetEnv env secret).current_guess_count = 0 ∧
    (resetEnv env secret).guess_history = [] ∧
    (resetEnv env secret).feedback_history = [] := by
  refine ⟨?_, rfl, rfl, rfl⟩
  simp [getObs, resetEnv]

/-- C2 (amended): when the guess budget is exhausted
(`current_guess_count ≥ max_guesses`), `step` is a defensive no-op: it
returns the current observation unchanged with reward 0,
terminated = true, truncated = false, and leaves the state unchanged —
hence repeated calls return identical results.  (The guard does not
fire merely because a previous guess matched the secret.) -/
theorem C2_exhausted_step_noop (env : WordleEnv) (action : ℤ)
    (h : env.max_guesses ≤ env.current_guess_count) :
    step env action = Except.ok ⟨env, getObs env, 0, true, false⟩ := by
  unfold step
  rw [if_pos h]

/-- C2 witness: the no-op at a concrete exhausted environment. -/
theorem C2_witness :
    step termEnv 0 = Except.ok ⟨termEnv, getObs termEnv, 0, true, false⟩ :=
  C2_exhausted_step_noop termEnv 0 (by decide)

/-- C2 counterexample: `wonEnv` is terminal in the claim's sense (its
previous guess equals the secret word and fewer than `max_guesses`
guesses are used), yet `step` processes a further guess: it returns
terminated = false with reward −0.1 (not 0) and increments the guess
count, contradicting the claimed no-op. -/
theorem C2_counterexample :
    wonEnv.guess_history = [wonEnv.secret_word] ∧
    wonEnv.current_guess_count < wonEnv.max_guesses ∧
    (step wonEnv 1).toOption.map
        (fun r => (r.terminated, r.reward, r.env.current_guess_count)) =
      some (false, -(1 / 10 : ℚ), 2) := by
  refine ⟨rfl, by decide, ?_⟩
  rfl

/-- C3 (amended): on a non-terminal episode, an action at or above
`actionSpaceSize()` (or below `-actionSpaceSize()`) makes `step` raise
`IndexError` before any state mutation, so the game state is unchanged;
but a negative action in `[-actionSpaceSize(), -1]` is silently accepted
by Python indexing and decodes a word from the end of the list. -/
theorem C3_out_of_range_raises (env : WordleEnv) (action : ℤ)
    (h1 : env.current_guess_count < env.max_guesses)
    (h2 : (env.word_list.length : ℤ) ≤ action ∨
      action < -(env.word_list.length : ℤ)) :
    step env action = Except.error "IndexError" := by
  unfold step
  rw [if_neg (by omega)]
  have hg : pyGet env.word_list action = none := by
    unfold pyGet
    rw [dif_neg (by omega), dif_neg (by omega)]
  rw [hg]

/-- C3 witness: action 5 on the two-word `baseEnv` raises. -/
theorem C3_witness : step baseEnv 5 = Except.error "IndexError" :=
  C3_out_of_range_raises baseEnv 5 (by decide) (by decide)

/-- C3 counterexample: the action −1 lies outside
`[0, actionSpaceSize())`, yet `step` on `baseEnv` does not fail: it
silently decodes the last vocabulary word "ba" and plays it as a
guess. -/
theorem C3_counterexample :
    ((-1 : ℤ) < 0 ∨ (baseEnv.word_list.length : ℤ) ≤ -1) ∧
    (step baseEnv (-1)).toOption.map (fun r => r.env.guess_history) =
      some [w_ba] := by
  refine ⟨Or.inl (by decide), ?_⟩
  decide

/-- C10: a non-raising `step` call never changes the secret word, the
vocabulary, the word length or the guess budget. -/
theorem C10_step_frame (env : WordleEnv) (a : ℤ) (r : StepResult)
    (h : step env a = Except.ok r) :
    r.env.secret_word = env.secret_word ∧
    r.env.word_list = env.word_list ∧
    r.env.word_length = env.word_length ∧
    r.env.max_guesses = env.max_guesses := by
  unfold step at h
  by_cases hc : env.max_guesses ≤ env.current_guess_count
  · rw [if_pos hc] at h
    injection h with h
    subst h
    exact ⟨rfl, rfl, rfl, rfl⟩
  · rw [if_neg hc] at h
    cases hg : pyGet env.word_list a with
    | none => rw [hg] at h; exact absurd h (by simp)
    | some g =>
      rw [hg] at h
      injection h with h
      subst h
      exact ⟨rfl, rfl, rfl, rfl⟩

/-- C10 witness: the frame condition at a concrete step. -/
theorem C10_witness :
    stepRes0.env.secret_word = baseEnv.secret_word ∧
    stepRes0.env.word_list = baseEnv.word_list ∧
    stepRes0.env.word_length = baseEnv.word_length ∧
    stepRes0.env.max_guesses = baseEnv.max_guesses :=
  C10_step_frame baseEnv 0 stepRes0 rfl

/-- Pass 1 on a word zipped with itself marks every position GREEN. -/
theorem pass1_self (s : Word) :
    ∀ (cnt : Char → ℤ) (alpha : List ℕ),
      (pass1 (s.zip s) cnt alpha).1 = List.replicate s.length GREEN := by
  induction s with
  | nil => intro cnt alpha; rfl
  | cons a t ih =>
    intro cnt alpha
    rw [List.zip_cons_cons, pass1, if_pos rfl, List.length_cons,
      List.replicate_succ]
    exact congrArg (GREEN :: ·) (ih _ _)

/-- Pass 2 leaves a feedback list that is GREEN everywhere untouched. -/
theorem pass2_all_green (secret : Word) (l : List (ℕ × Char)) :
    ∀ (cnt : Char → ℤ) (alpha : List ℕ), (∀ p ∈ l, p.1 = GREEN) →
      (pass2 secret l cnt alpha).1 = List.replicate l.length GREEN := by
  induction l with
  | nil => intro cnt alpha _; rfl
  | cons p rest ih =>
    intro cnt alpha h
    obtain ⟨f, g⟩ := p
    have hf : f = GREEN := h (f, g) (List.mem_cons_self _ _)
    simp only [pass2, if_pos hf, List.length_cons, List.replicate_succ,
      ih _ _ (fun q hq => h q (List.mem_cons_of_mem _ hq))]

/-- C5: from a non-terminal state, guessing the secret word itself yields
all-GREEN feedback, reward +1.0 and terminated = true. -/
theorem C5_winning_guess (env : WordleEnv) (action : ℤ)
    (h1 : env.current_guess_count < env.max_guesses)
    (h2 : pyGet env.word_list action = some env.secret_word) :
    (step env action).toOption.map
        (fun r => (r.obs.last_feedback, r.reward, r.terminated)) =
      some (List.replicate env.secret_word.length GREEN, 1, true) := by
  unfold step
  rw [if_neg (by omega), h2]
  simp only [Except.toOption, Option.map, if_pos rfl]
  have hp1 : (pass1 (env.secret_word.zip env.secret_word)
      (initCounts env.secret_word) env.alphabet_status).1 =
      List.replicate env.secret_word.length GREEN := pass1_self _ _ _
  have hall : ∀ p ∈ (List.replicate env.secret_word.length GREEN).zip
      env.secret_word, Prod.fst p = GREEN := by
    intro p hp
    obtain ⟨x, y⟩ := p
    exact List.eq_of_mem_replicate (List.of_mem_zip hp).1
  have hlen : ((List.replicate env.secret_word.length GREEN).zip
      env.secret_word).length = env.secret_word.length := by
    simp
  refine congrArg some ?_
  refine Prod.ext ?_ rfl
  show (pass2 env.secret_word _ _ _).1 = _
  rw [hp1, pass2_all_green _ _ _ _ hall, hlen]

/-- C5 witness: winning at a concrete environment (secret "ab",
action 0). -/
theorem C5_witness :
    (step baseEnv 0).toOption.map
        (fun r => (r.obs.last_feedback, r.reward, r.terminated)) =
      some (List.replicate baseEnv.secret_word.length GREEN, 1, true) :=
  C5_winning_guess baseEnv 0 (by decide) rfl

/-- C6: from a non-terminal state, a guess different from the secret
gives reward −1.0 with terminated = true when it uses up the last
allowed guess, and reward −0.1 with terminated = false otherwise;
truncated is false on every non-raising step. -/
theorem C6_nonwinning_guess (env : WordleEnv) (action : ℤ) (guess : Word)
    (h1 : env.current_guess_count < env.max_guesses)
    (h2 : pyGet env.word_list action = some guess)
    (h3 : guess ≠ env.secret_word) :
    (env.current_guess_count + 1 = env.max_guesses →
      (step env action).toOption.map
          (fun r => (r.reward, r.terminated, r.truncated)) =
        some (-1, true, false)) ∧
    (env.current_guess_count + 1 ≠ env.max_guesses →
      (step env action).toOption.map
          (fun r => (r.reward, r.terminated, r.truncated)) =
        some (-(1 / 10), false, false)) ∧
    (∀ (e : WordleEnv) (a : ℤ) (r : StepResult),
      step e a = Except.ok r → r.truncated = false) := by
  refine ⟨?_, ?_, ?_⟩
  · intro hm
    unfold step
    rw [if_neg (by omega), h2]
    simp only [Except.toOption, Option.map, if_neg h3, if_pos hm]
  · intro hm
    unfold step
    rw [if_neg (by omega), h2]
    simp only [Except.toOption, Option.map, if_neg h3, if_neg hm]
  · intro e a r hok
    unfold step at hok
    by_cases hc : e.max_guesses ≤ e.current_guess_count
    · rw [if_pos hc] at hok
      injection hok with hok
      subst hok
      rfl
    · rw [if_neg hc] at hok
      cases hg : pyGet e.word_list a with
      | none => rw [hg] at hok; exact absurd hok (by simp)
      | some g =>
        rw [hg] at hok
        injection hok with hok
        subst hok
        rfl

/-- `baseEnv` with two of three guesses already used. -/
def lastTurnEnv : WordleEnv := { baseEnv with current_guess_count := 2 }

/-- C6 witness: the losing final guess and the in-progress guess at
concrete environments, plus truncated = false at a concrete step. -/
theorem C6_witness :
    (step lastTurnEnv 1).toOption.map
        (fun r => (r.reward, r.terminated, r.truncated)) =
      some (-1, true, false) ∧
    (step baseEnv 1).toOption.map
        (fun r => (r.reward, r.terminated, r.truncated)) =
      some (-(1 / 10), false, false) ∧
    stepRes1.truncated = false :=
  ⟨(C6_nonwinning_guess lastTurnEnv 1 w_ba (by decide) rfl
      (by decide)).1 (by decide),
   (C6_nonwinning_guess baseEnv 1 w_ba (by decide) rfl
      (by decide)).2.1 (by decide),
   (C6_nonwinning_guess baseEnv 1 w_ba (by decide) rfl
      (by decide)).2.2 baseEnv 1 stepRes1 rfl⟩

/-- C8: a non-raising step from a non-terminal state decreases
`guesses_remaining` by exactly 1, and in every state reachable by reset
and step calls the guess count never exceeds the budget, so
`guesses_remaining` is never negative. -/
theorem C8_guesses_remaining :
    (∀ (env : WordleEnv) (a : ℤ) (r : StepResult),
      env.current_guess_count < env.max_guesses →
      step env a = Except.ok r →
      (getObs r.env).guesses_remaining =
        (getObs env).guesses_remaining - 1) ∧
    (∀ env : WordleEnv, Reachable env →
      env.current_guess_count ≤ env.max_guesses ∧
      0 ≤ (getObs env).guesses_remaining) := by
  constructor
  · intro env a r h hok
    unfold step at hok
    rw [if_neg (by omega)] at hok
    cases hg : pyGet env.word_list a with
    | none => rw [hg] at hok; exact absurd hok (by simp)
    | some g =>
      rw [hg] at hok
      injection hok with hok
      subst hok
      simp only [getObs]
      push_cast
      ring
  · intro env hr
    induction hr with
    | reset e s =>
      constructor
      · exact Nat.zero_le _
      · simp only [getObs, resetEnv]
        omega
    | step e a r hre hok ih =>
      unfold step at hok
      by_cases hc : e.max_guesses ≤ e.current_guess_count
      · rw [if_pos hc] at hok
        injection hok with hok
        subst hok
        exact ih
      · rw [if_neg hc] at hok
        cases hg : pyGet e.word_list a with
        | none => rw [hg] at hok; exact absurd hok (by simp)
        | some g =>
          rw [hg] at hok
          injection hok with hok
          subst hok
          constructor
          · show e.current_guess_count + 1 ≤ e.max_guesses
            omega
          · simp only [getObs]
            omega

/-- C8 witness: the decrease at a concrete step and the invariant at a
concrete reachable state. -/
theorem C8_witness :
    (getObs stepRes0.env).guesses_remaining =
      (getObs baseEnv).guesses_remaining - 1 ∧
    ((resetEnv baseEnv w_ab).current_guess_count ≤
      (resetEnv baseEnv w_ab).max_guesses ∧
     0 ≤ (getObs (resetEnv baseEnv w_ab)).guesses_remaining) :=
  ⟨C8_guesses_remaining.1 baseEnv 0 stepRes0 (by decide) rfl,
   C8_guesses_remaining.2 (resetEnv baseEnv w_ab)
     (Reachable.reset baseEnv w_ab)⟩

/-- Rank of an alphabet-status value in the promotion order
UNUSED < GRAY/YELLOW < GREEN (GRAY and YELLOW share a rank). -/
def rank (n : ℕ) : ℕ := if n = 0 then 0 else if n = 3 then 2 else 1

/-- One alphabet-status transition allowed by the promotion rule: the
rank never decreases, GREEN is absorbing, YELLOW is never downgraded to
GRAY or UNUSED, and GRAY only ever replaces UNUSED (or stays GRAY). -/
def statusLe (x y : ℕ) : Prop :=
  rank x ≤ rank y ∧ (x = GREEN → y = GREEN) ∧
  (x = YELLOW → y = YELLOW ∨ y = GREEN) ∧ (y = GRAY → x = EMPTY ∨ x = GRAY)

theorem statusLe_refl (x : ℕ) : statusLe x x :=
  ⟨le_refl _, fun h => h, fun h => Or.inl h, fun h => Or.inr h⟩

theorem rank_eq_zero {x : ℕ} (h : rank x = 0) : x = 0 := by
  by_contra hx
  unfold rank at h
  rw [if_neg hx] at h
  split_ifs at h

theorem rank_le_two (x : ℕ) : rank x ≤ 2 := by
  unfold rank
  split_ifs <;> omega

theorem rank_le_one_of_ne_three {x : ℕ} (h : x ≠ 3) : rank x ≤ 1 := by
  unfold rank
  split_ifs <;> omega

theorem statusLe_trans {x y z : ℕ} (h1 : statusLe x y) (h2 : statusLe y z) :
    statusLe x z := by
  obtain ⟨r1, g1, y1, a1⟩ := h1
  obtain ⟨r2, g2, y2, a2⟩ := h2
  refine ⟨le_trans r1 r2, fun h => g2 (g1 h), fun h => ?_, fun h => ?_⟩
  · rcases y1 h with h' | h'
    · exact y2 h'
    · exact Or.inr (g2 h')
  · rcases a2 h with h' | h'
    · have hy : y = 0 := h'
      rw [hy] at r1
      exact Or.inl (rank_eq_zero (Nat.le_zero.mp r1))
    · exact a1 h'

theorem statusLe_green (x : ℕ) : statusLe x GREEN :=
  ⟨by rw [show rank GREEN = 2 from rfl]; exact rank_le_two x,
   fun _ => rfl, fun _ => Or.inr rfl, fun h => absurd h (by decide)⟩

theorem statusLe_yellow {x : ℕ} (hx : x ≠ GREEN) : statusLe x YELLOW :=
  ⟨by rw [show rank YELLOW = 1 from rfl]; exact rank_le_one_of_ne_three hx,
   fun h => absurd h hx, fun _ => Or.inl rfl, fun h => absurd h (by decide)⟩

theorem statusLe_empty_gray : statusLe EMPTY GRAY :=
  ⟨by decide, fun h => absurd h (by decide), fun h => absurd h (by decide),
   fun _ => Or.inl rfl⟩

/-- `getD` after `set`: the written value where it landed in range, the
old value everywhere else. -/
theorem getD_set (a : List ℕ) (j i v : ℕ) :
    (a.set j v).getD i 0 = if i = j ∧ j < a.length then v else a.getD i 0 := by
  simp only [List.getD_eq_getElem?_getD, List.getElem?_set]
  by_cases h1 : j = i
  · subst h1
    by_cases h2 : j < a.length
    · rw [if_pos rfl, if_pos h2, if_pos ⟨rfl, h2⟩]
      rfl
    · rw [if_pos rfl, if_neg h2, if_neg (fun hc => h2 hc.2),
        List.getElem?_eq_none (le_of_not_lt h2)]
  · rw [if_neg h1, if_neg (fun hc => h1 hc.1.symm)]

theorem statusLe_set_green (a : List ℕ) (j i : ℕ) :
    statusLe (a.getD i 0) ((a.set j GREEN).getD i 0) := by
  rw [getD_set]
  split_ifs with h
  · exact statusLe_green _
  · exact statusLe_refl _

theorem statusLe_yellow_update (a : List ℕ) (j i : ℕ) :
    statusLe (a.getD i 0)
      ((if a.getD j 0 = GREEN then a else a.set j YELLOW).getD i 0) := by
  split_ifs with hg
  · exact statusLe_refl _
  · rw [getD_set]
    split_ifs with h
    · have hx : a.getD i 0 ≠ GREEN := by rw [h.1]; exact hg
      exact statusLe_yellow hx
    · exact statusLe_refl _

theorem statusLe_gray_update (a : List ℕ) (j i : ℕ) :
    statusLe (a.getD i 0)
      ((if a.getD j 0 = EMPTY then a.set j GRAY else a).getD i 0) := by
  split_ifs with hg
  · rw [getD_set]
    split_ifs with h
    · have hx : a.getD i 0 = EMPTY := by rw [h.1]; exact hg
      rw [hx]
      exact statusLe_empty_gray
    · exact statusLe_refl _
  · exact statusLe_refl _

/-- Pass 1 only promotes alphabet statuses. -/
theorem pass1_alpha_mono (ps : List (Char × Char)) :
    ∀ (cnt : Char → ℤ) (alpha : List ℕ) (i : ℕ),
      statusLe (alpha.getD i 0) ((pass1 ps cnt alpha).2.2.getD i 0) := by
  induction ps with
  | nil => intro cnt alpha i; exact statusLe_refl _
  | cons p rest ih =>
    intro cnt alpha i
    obtain ⟨g, s⟩ := p
    by_cases hgs : g = s
    · rw [pass1, if_pos hgs]
      exact statusLe_trans (statusLe_set_green _ _ _) (ih _ _ _)
    · rw [pass1, if_neg hgs]
      exact ih _ _ _

/-- Pass 2 only promotes alphabet statuses. -/
theorem pass2_alpha_mono (secret : Word) (l : List (ℕ × Char)) :
    ∀ (cnt : Char → ℤ) (alpha : List ℕ) (i : ℕ),
      statusLe (alpha.getD i 0) ((pass2 secret l cnt alpha).2.2.getD i 0) := by
  induction l with
  | nil => intro cnt alpha i; exact statusLe_refl _
  | cons p rest ih =>
    intro cnt alpha i
    obtain ⟨f, g⟩ := p
    by_cases hf : f = GREEN
    · rw [pass2, if_pos hf]
      exact ih _ _ _
    · by_cases hy : g ∈ secret ∧ 0 < cnt g
      · rw [pass2, if_neg hf, if_pos hy]
        exact statusLe_trans (statusLe_yellow_update _ _ _) (ih _ _ _)
      · rw [pass2, if_neg hf, if_neg hy]
        exact statusLe_trans (statusLe_gray_update _ _ _) (ih _ _ _)

/-- C4: across any non-raising `step` call, each letter's alphabet
status only moves per the monotonic promotion rule (`statusLe`): rank
UNUSED < GRAY/YELLOW < GREEN never decreases, a GREEN status stays
GREEN, a YELLOW status is never downgraded to GRAY or UNUSED, and a GRAY
status is only introduced where the status was UNUSED. -/
theorem C4_alphabet_status_monotone (env : WordleEnv) (a : ℤ)
    (r : StepResult) (h : step env a = Except.ok r) :
    ∀ i : ℕ, statusLe (env.alphabet_status.getD i 0)
      (r.env.alphabet_status.getD i 0) := by
  intro i
  unfold step at h
  by_cases hc : env.max_guesses ≤ env.current_guess_count
  · rw [if_pos hc] at h
    injection h with h
    subst h
    exact statusLe_refl _
  · rw [if_neg hc] at h
    cases hg : pyGet env.word_list a with
    | none => rw [hg] at h; exact absurd h (by simp)
    | some g =>
      rw [hg] at h
      injection h with h
      subst h
      exact statusLe_trans (pass1_alpha_mono _ _ _ _)
        (pass2_alpha_mono _ _ _ _ _)

/-- C4 witness: the promotion relation at a concrete step and letter. -/
theorem C4_witness :
    statusLe (baseEnv.alphabet_status.getD 0 0)
      (stepRes1.env.alphabet_status.getD 0 0) :=
  C4_alphabet_status_monotone baseEnv 1 stepRes1 rfl 0

/-- Pass 1 computes the same feedback and counts whatever the
alphabet-status argument is. -/
theorem pass1_eq_score1 (ps : List (Char × Char)) :
    ∀ (cnt : Char → ℤ) (alpha : List ℕ),
      (pass1 ps cnt alpha).1 = (score1 ps cnt).1 ∧
      (pass1 ps cnt alpha).2.1 = (score1 ps cnt).2 := by
  induction ps with
  | nil => intro cnt alpha; exact ⟨rfl, rfl⟩
  | cons p rest ih =>
    intro cnt alpha
    obtain ⟨g, s⟩ := p
    by_cases hgs : g = s
    · rw [pass1, score1, if_pos hgs, if_pos hgs]
      exact ⟨congrArg (GREEN :: ·) (ih _ _).1, (ih _ _).2⟩
    · rw [pass1, score1, if_neg hgs, if_neg hgs]
      exact ⟨congrArg (GRAY :: ·) (ih _ _).1, (ih _ _).2⟩

/-- Pass 2 computes the same feedback and counts whatever the
alphabet-status argument is. -/
theorem pass2_eq_score2 (secret : Word) (l : List (ℕ × Char)) :
    ∀ (cnt : Char → ℤ) (alpha : List ℕ),
      (pass2 secret l cnt alpha).1 = (score2 secret l cnt).1 ∧
      (pass2 secret l cnt alpha).2.1 = (score2 secret l cnt).2 := by
  induction l with
  | nil => intro cnt alpha; exact ⟨rfl, rfl⟩
  | cons p rest ih =>
    intro cnt alpha
    obtain ⟨f, g⟩ := p
    by_cases hf : f = GREEN
    · rw [pass2, score2, if_pos hf, if_pos hf]
      exact ⟨congrArg (GREEN :: ·) (ih _ _).1, (ih _ _).2⟩
    · by_cases hy : g ∈ secret ∧ 0 < cnt g
      · rw [pass2, score2, if_neg hf, if_neg hf, if_pos hy, if_pos hy]
        exact ⟨congrArg (YELLOW :: ·) (ih _ _).1, (ih _ _).2⟩
      · rw [pass2, score2, if_neg hf, if_neg hf, if_neg hy, if_neg hy]
        exact ⟨congrArg (f :: ·) (ih _ _).1, (ih _ _).2⟩

/-- The feedback stored by a successful non-terminal step is the pure
two-pass score of the decoded guess against the secret. -/
theorem step_feedback_eq_score (env : WordleEnv) (action : ℤ) (guess : Word)
    (h1 : env.current_guess_count < env.max_guesses)
    (h2 : pyGet env.word_list action = some guess) :
    (step env action).toOption.map (fun r => r.obs.last_feedback) =
      some (scoreGuess guess env.secret_word) := by
  unfold step
  rw [if_neg (by omega), h2]
  simp only [Except.toOption, Option.map]
  refine congrArg some ?_
  show (pass2 env.secret_word
      ((pass1 (guess.zip env.secret_word) (initCounts env.secret_word)
        env.alphabet_status).1.zip guess)
      (pass1 (guess.zip env.secret_word) (initCounts env.secret_word)
        env.alphabet_status).2.1
      (pass1 (guess.zip env.secret_word) (initCounts env.secret_word)
        env.alphabet_status).2.2).1 = scoreGuess guess env.secret_word
  have e1 := pass1_eq_score1 (guess.zip env.secret_word)
    (initCounts env.secret_word) env.alphabet_status
  rw [e1.1, e1.2,
    (pass2_eq_score2 env.secret_word _ _ _).1]
  rfl

/-- Pass 1 feedback: GREEN exactly at exact matches, GRAY elsewhere. -/
theorem score1_fst (ps : List (Char × Char)) :
    ∀ cnt : Char → ℤ, (score1 ps cnt).1 =
      ps.map (fun p => if p.1 = p.2 then GREEN else GRAY) := by
  induction ps with
  | nil => intro cnt; rfl
  | cons p rest ih =>
    intro cnt
    obtain ⟨g, s⟩ := p
    by_cases hgs : g = s
    · rw [score1, if_pos hgs, List.map_cons]
      show GREEN :: (score1 rest (decr cnt g)).1 = _
      rw [ih, if_pos hgs]
    · rw [score1, if_neg hgs, List.map_cons]
      show GRAY :: (score1 rest cnt).1 = _
      rw [ih, if_neg hgs]

/-- Pass 1 counts: each letter's remaining count drops by its number of
GREEN (exact-match) positions. -/
theorem score1_snd (ps : List (Char × Char)) :
    ∀ (cnt : Char → ℤ) (ch : Char), (score1 ps cnt).2 ch =
      cnt ch - (ps.countP (fun p => decide (p.1 = p.2 ∧ p.1 = ch)) : ℤ) := by
  induction ps with
  | nil => intro cnt ch; simp [score1]
  | cons p rest ih =>
    intro cnt ch
    obtain ⟨g, s⟩ := p
    by_cases hgs : g = s
    · rw [score1, if_pos hgs]
      show (score1 rest (decr cnt g)).2 ch = _
      rw [ih, List.countP_cons]
      simp only [decide_eq_true_eq]
      by_cases hch : ch = g
      · rw [if_pos ⟨hgs, hch.symm⟩]
        simp only [decr, if_pos hch]
        push_cast
        ring
      · rw [if_neg (fun hc => hch hc.2.symm)]
        simp only [decr, if_neg hch]
        push_cast
        ring
    · rw [score1, if_neg hgs]
      show (score1 rest cnt).2 ch = _
      rw [ih, List.countP_cons]
      simp only [decide_eq_true_eq]
      rw [if_neg (fun hc => hgs hc.1)]
      push_cast
      ring

/-- Pass 2 GREEN+YELLOW bound: on a feedback list containing only GREEN
and GRAY marks, the GREEN/YELLOW positions carrying `ch` in the pass-2
output are at most the GREEN positions carrying `ch` plus the remaining
budget for `ch`. -/
theorem score2_gy_bound (secret : Word) (ch : Char) :
    ∀ (l : List (ℕ × Char)) (cnt : Char → ℤ),
      (∀ p ∈ l, p.1 = GREEN ∨ p.1 = GRAY) →
      (((score2 secret l cnt).1.zip (l.map Prod.snd)).countP
          (fun p => decide ((p.1 = GREEN ∨ p.1 = YELLOW) ∧ p.2 = ch)) : ℤ)
        ≤ (l.countP (fun p => decide (p.1 = GREEN ∧ p.2 = ch)) : ℤ)
          + max (cnt ch) 0 := by
  intro l
  induction l with
  | nil =>
    intro cnt _
    simp [score2]
  | cons p rest ih =>
    intro cnt h
    obtain ⟨f, g⟩ := p
    have hrest : ∀ p ∈ rest, p.1 = GREEN ∨ p.1 = GRAY :=
      fun q hq => h q (List.mem_cons_of_mem _ hq)
    by_cases hf : f = GREEN
    · rw [score2, if_pos hf]
      show ((((GREEN : ℕ) :: (score2 secret rest cnt).1).zip
          (g :: rest.map Prod.snd)).countP _ : ℤ) ≤ _
      rw [List.zip_cons_cons, List.countP_cons, List.countP_cons]
      simp only [decide_eq_true_eq]
      by_cases hch : g = ch
      · rw [if_pos ⟨Or.inl trivial, hch⟩, if_pos ⟨hf, hch⟩]
        have := ih cnt hrest
        push_cast
        push_cast at this
        omega
      · rw [if_neg (show ¬((True ∨ GREEN = YELLOW) ∧ g = ch) from
            fun hc => hch hc.2),
          if_neg (show ¬(f = GREEN ∧ g = ch) from fun hc => hch hc.2)]
        have := ih cnt hrest
        push_cast
        push_cast at this
        omega
    · by_cases hy : g ∈ secret ∧ 0 < cnt g
      · rw [score2, if_neg hf, if_pos hy]
        show ((((YELLOW : ℕ) :: (score2 secret rest (decr cnt g)).1).zip
            (g :: rest.map Prod.snd)).countP _ : ℤ) ≤ _
        rw [List.zip_cons_cons, List.countP_cons, List.countP_cons]
        simp only [decide_eq_true_eq]
        rw [if_neg (show ¬(f = GREEN ∧ g = ch) from fun hc => hf hc.1)]
        have hih := ih (decr cnt g) hrest
        by_cases hch : g = ch
        · rw [if_pos (show (YELLOW = GREEN ∨ True) ∧ g = ch from
            ⟨Or.inr trivial, hch⟩)]
          have h0 : (0 : ℤ) < cnt ch := by
            have := hy.2
            rwa [hch] at this
          have hd : decr cnt g ch = cnt ch - 1 := by
            unfold decr
            rw [if_pos hch.symm]
          rw [hd, max_eq_left (by omega : (0:ℤ) ≤ cnt ch - 1)] at hih
          rw [max_eq_left (by omega : (0:ℤ) ≤ cnt ch)]
          push_cast at hih ⊢
          omega
        · rw [if_neg (show ¬((YELLOW = GREEN ∨ True) ∧ g = ch) from
            fun hc => hch hc.2)]
          have hd : decr cnt g ch = cnt ch := by
            unfold decr
            rw [if_neg (fun hc => hch hc.symm)]
          rw [hd] at hih
          push_cast at hih ⊢
          omega
      · rw [score2, if_neg hf, if_neg hy]
        have hfg : f = GRAY := (h (f, g) (List.mem_cons_self _ _)).resolve_left hf
        show (((f :: (score2 secret rest cnt).1).zip
            (g :: rest.map Prod.snd)).countP _ : ℤ) ≤ _
        rw [List.zip_cons_cons, List.countP_cons, List.countP_cons]
        simp only [decide_eq_true_eq]
        rw [if_neg (fun hc => by rw [hfg] at hc; exact absurd hc.1 (by decide)),
          if_neg (fun hc => hf hc.1)]
        have hih := ih cnt hrest
        push_cast at hih ⊢
        omega

/-- The GREEN (exact-match) positions carrying `ch` are no more than
`ch`'s occurrences in the secret. -/
theorem greens_le_occ (guess secret : Word) (ch : Char)
    (hlen : guess.length = secret.length) :
    (guess.zip secret).countP (fun q => decide (q.1 = q.2 ∧ q.1 = ch))
      ≤ secret.count ch := by
  have h1 : (guess.zip secret).countP (fun q => decide (q.1 = q.2 ∧ q.1 = ch))
      ≤ (guess.zip secret).countP (fun q => decide (q.2 = ch)) := by
    apply List.countP_mono_left
    intro q _ hq
    simp only [decide_eq_true_eq] at hq ⊢
    rw [← hq.1]
    exact hq.2
  have hsnd : (guess.zip secret).map Prod.snd = secret :=
    List.map_snd_zip guess secret (le_of_eq hlen.symm)
  have hm := List.countP_map (fun x : Char => decide (x = ch)) Prod.snd
    (guess.zip secret)
  rw [hsnd] at hm
  have h2 : (guess.zip secret).countP (fun q => decide (q.2 = ch))
      = secret.count ch := by
    calc (guess.zip secret).countP (fun q => decide (q.2 = ch))
        = (guess.zip secret).countP
            ((fun x : Char => decide (x = ch)) ∘ Prod.snd) := rfl
      _ = secret.countP (fun x : Char => decide (x = ch)) := hm.symm
      _ = secret.countP (· == ch) := List.countP_congr (fun x _ => by simp)
      _ = secret.count ch := (List.count_eq_countP ch secret).symm
  exact h2 ▸ h1

/-- The claim's duplicate-letter guarantee for the pure two-pass score:
for every letter, GREEN plus YELLOW positions never exceed that letter's
occurrence count in the secret word. -/
theorem scoreGuess_gy_le (guess secret : Word) (ch : Char)
    (hlen : guess.length = secret.length) :
    countGY ch (scoreGuess guess secret) guess ≤ secret.count ch := by
  set Z := guess.zip secret with hZ
  have hfst : Z.map Prod.fst = guess :=
    List.map_fst_zip guess secret (le_of_eq hlen)
  have hfb1 : (score1 Z (initCounts secret)).1
      = Z.map (fun p => if p.1 = p.2 then GREEN else GRAY) := score1_fst _ _
  set items := (score1 Z (initCounts secret)).1.zip guess with hitems
  have hitems2 : items = Z.map (fun q =>
      ((if q.1 = q.2 then GREEN else GRAY), q.1)) := by
    rw [hitems, hfb1]
    conv_lhs => rw [← hfst]
    exact List.zip_map' _ _ _
  have hGG : ∀ p ∈ items, p.1 = GREEN ∨ p.1 = GRAY := by
    intro p hp
    rw [hitems2] at hp
    obtain ⟨q, _, rfl⟩ := List.mem_map.mp hp
    dsimp only
    split_ifs
    · exact Or.inl rfl
    · exact Or.inr rfl
  have hmsnd : items.map Prod.snd = guess := by
    rw [hitems2, List.map_map]
    rw [show (Prod.snd ∘ fun q : Char × Char =>
      ((if q.1 = q.2 then GREEN else GRAY), q.1)) = Prod.fst from rfl, hfst]
  have hk := score2_gy_bound secret ch items
    (score1 Z (initCounts secret)).2 hGG
  rw [hmsnd] at hk
  have hgr : items.countP (fun p => decide (p.1 = GREEN ∧ p.2 = ch))
      = Z.countP (fun q => decide (q.1 = q.2 ∧ q.1 = ch)) := by
    rw [hitems2, List.countP_map]
    apply List.countP_congr
    intro q _
    simp only [Function.comp_apply]
    by_cases hq : q.1 = q.2
    · simp [hq]
    · simp [hq, GRAY, GREEN]
  have hc1 : (score1 Z (initCounts secret)).2 ch
      = (secret.count ch : ℤ)
        - (Z.countP (fun q => decide (q.1 = q.2 ∧ q.1 = ch)) : ℤ) := by
    rw [score1_snd]
    rfl
  have hgle := greens_le_occ guess secret ch hlen
  rw [hgr, hc1] at hk
  rw [max_eq_left (sub_nonneg.mpr (by exact_mod_cast hgle))] at hk
  have hk2 : ((countGY ch (scoreGuess guess secret) guess : ℕ) : ℤ)
      ≤ (Z.countP (fun q => decide (q.1 = q.2 ∧ q.1 = ch)) : ℤ)
        + ((secret.count ch : ℤ)
          - (Z.countP (fun q => decide (q.1 = q.2 ∧ q.1 = ch)) : ℤ)) := hk
  omega

/-- C1: for every non-terminal state and successfully decoded action,
the feedback returned by `step` equals the pure two-pass Wordle score of
the decoded guess against the secret, and for every letter the number
of GREEN plus YELLOW positions carrying that letter never exceeds its
occurrence count in the secret word. -/
theorem C1_two_pass_scoring (env : WordleEnv) (action : ℤ) (guess : Word)
    (hwf : WFEnv env)
    (h1 : env.current_guess_count < env.max_guesses)
    (h2 : pyGet env.word_list action = some guess) :
    (step env action).toOption.map (fun r => r.obs.last_feedback) =
      some (scoreGuess guess env.secret_word) ∧
    ∀ ch : Char, countGY ch (scoreGuess guess env.secret_word) guess ≤
      env.secret_word.count ch := by
  have hlen : guess.length = env.secret_word.length := by
    rw [(hwf.1 guess (pyGet_mem h2)).1, (hwf.1 env.secret_word hwf.2).1]
  exact ⟨step_feedback_eq_score env action guess h1 h2,
    fun ch => scoreGuess_gy_le guess env.secret_word ch hlen⟩

/-- C1 witness: the scoring equation and the per-letter bound at a
concrete step (guess "ba" against secret "ab"). -/
theorem C1_witness :
    (step baseEnv 1).toOption.map (fun r => r.obs.last_feedback) =
      some (scoreGuess w_ba baseEnv.secret_word) ∧
    countGY 'a' (scoreGuess w_ba baseEnv.secret_word) w_ba ≤
      baseEnv.secret_word.count 'a' :=
  ⟨(C1_two_pass_scoring baseEnv 1 w_ba ⟨by decide, by decide⟩
      (by decide) rfl).1,
   (C1_two_pass_scoring baseEnv 1 w_ba ⟨by decide, by decide⟩
      (by decide) rfl).2 'a'⟩

/-- C9: the constructed word list is sorted, duplicate-free, and holds
exactly the lowercased length-`L` input words; construction fails with a
configuration error exactly when the input collection is empty or no
word of length `L` survives the filter. -/
theorem C9_word_list_construction (raw : List Word) (L : ℕ) :
    (∀ wl, initWordList raw L = Except.ok wl →
      List.Sorted (· ≤ ·) wl ∧ wl.Nodup ∧
      (∀ w : Word, w ∈ wl ↔ ∃ v ∈ raw, v.length = L ∧ pyLower v = w)) ∧
    ((initWordList raw L).toOption = none ↔
      raw = [] ∨ raw.filter (fun w => w.length = L) = []) := by
  have hsort_nil : ∀ h : raw.filter (fun w => w.length = L) = [],
      (((raw.filter (fun w => w.length = L)).map
        pyLower).dedup).insertionSort (· ≤ ·) = [] := by
    intro h
    rw [h]
    rfl
  constructor
  · intro wl hok
    unfold initWordList at hok
    by_cases hraw : raw = []
    · rw [if_pos hraw] at hok
      exact absurd hok (by simp)
    · rw [if_neg hraw] at hok
      by_cases hnil : (((raw.filter (fun w => w.length = L)).map
          pyLower).dedup).insertionSort (· ≤ ·) = []
      · rw [if_pos hnil] at hok
        exact absurd hok (by simp)
      · rw [if_neg hnil] at hok
        injection hok with hok
        subst hok
        refine ⟨List.sorted_insertionSort _ _, ?_, ?_⟩
        · exact ((List.perm_insertionSort _ _).nodup_iff).mpr
            (List.nodup_dedup _)
        · intro w
          rw [(List.perm_insertionSort _ _).mem_iff, List.mem_dedup,
            List.mem_map]
          constructor
          · rintro ⟨v, hv, rfl⟩
            rw [List.mem_filter] at hv
            exact ⟨v, hv.1, by simpa using hv.2, rfl⟩
          · rintro ⟨v, hv, hlen, rfl⟩
            exact ⟨v, List.mem_filter.mpr ⟨hv, by simp [hlen]⟩, rfl⟩
  · unfold initWordList
    by_cases hraw : raw = []
    · rw [if_pos hraw]
      simp [Except.toOption, hraw]
    · rw [if_neg hraw]
      by_cases hnil : (((raw.filter (fun w => w.length = L)).map
          pyLower).dedup).insertionSort (· ≤ ·) = []
      · rw [if_pos hnil]
        have hfil : raw.filter (fun w => w.length = L) = [] := by
          have hperm := List.perm_insertionSort
            ((· ≤ ·) : Word → Word → Prop)
            (((raw.filter (fun w => w.length = L)).map pyLower).dedup)
          rw [hnil] at hperm
          have hded := List.Perm.eq_nil hperm.symm
          rw [List.dedup_eq_nil] at hded
          exact List.map_eq_nil_iff.mp hded
        simp [Except.toOption, hfil]
      · rw [if_neg hnil]
        simp only [Except.toOption]
        constructor
        · intro h
          exact absurd h (by simp)
        · rintro (h | h)
          · exact absurd h hraw
          · exact absurd (hsort_nil h) hnil

/-- A raw input collection with mixed lengths, case and a duplicate
modulo case. -/
def raw0 : List Word := [['b', 'a'], ['A', 'B'], ['c'], ['a', 'b']]

/-- C9 witness: the construction at `raw0` gives the sorted deduplicated
lowercase list ["ab", "ba"], and the empty input yields an error. -/
theorem C9_witness :
    (List.Sorted (· ≤ ·) [w_ab, w_ba] ∧ ([w_ab, w_ba] : List Word).Nodup ∧
      (w_ab ∈ [w_ab, w_ba] ↔ ∃ v ∈ raw0, v.length = 2 ∧ pyLower v = w_ab)) ∧
    ((initWordList [] 2).toOption = none ↔
      ([] : List Word) = [] ∨
      ([] : List Word).filter (fun w => w.length = 2) = []) := by
  have T := (C9_word_list_construction raw0 2).1 [w_ab, w_ba] rfl
  exact ⟨⟨T.1, T.2.1, T.2.2 w_ab⟩, (C9_word_list_construction [] 2).2⟩

end Wordle
